import Mathlib

/-! # Verification of the ML repository (two instructional notebooks)

This file embeds, in Lean 4, the parts of the repository needed to settle the
frozen claims:

* the graphical-models notebook (`src/unnamed/part_000`): three tree-structured
  factor graphs over MNIST images (example two-level-count model, shallow
  400-pixel model, hierarchical 16-group model), their empirical factor tables,
  and the `predict` functions;
* the backpropagation notebook (`src/sheet14.ipynb`): the `train` function that
  backpropagates an SVM gradient into a neural network.

The generic message-passing engine (`graphical.py`) and the neural-network /
SVC modules (`modules.py`, `utils.py`) are not part of the provided sources;
where a claim depends on them they are modelled from the spec, and such
definitions carry a doc comment starting with `Modelled from the spec:`.

Numeric arrays are embedded over `ℚ` (the float tables hold probabilities and
their logs; the claims under study compare the probability domain, i.e. the
exponentials of the stored log tables, so tables are embedded directly as
rational-valued probability tables).
-/

namespace ML

/-! ## Generic helpers: argmax over a list (numpy.argmax semantics) -/

/-- Index of the first maximal element of a list (`np.argmax`); 0 on `[]`. -/
def argmaxIdx : List ℚ → ℕ
  | [] => 0
  | a :: rest =>
      let j := argmaxIdx rest
      if a < rest.getD j 0 then j + 1 else 0

/-- Sum of a flatMap is the sum of the per-element sums. -/
theorem sum_flatMap_eq {α β : Type} [AddCommMonoid β] (l : List α) (f : α → List β) :
    (l.flatMap f).sum = (l.map fun a => (f a).sum).sum := by
  induction l with
  | nil => rfl
  | cons a l ih => simp [List.flatMap_cons, ih]

/-! ## Factor trees and sum-product message passing

Modelled from the spec: `graphical.py` (the `VariableNode` / `FactorNode`
classes with `initiateMessagePassing` and `computeMarginal`) is not among the
provided sources.  The spec describes it as exact inference via belief
propagation (sum-product) over tree-structured factor graphs with discrete
variables.  All factors constructed in the notebook are either unary (on the
root class variable) or pairwise between a variable and one child variable, so
a rooted factor tree is embedded as the mutual inductive below: a variable node
carries its number of states, an optional evidence value, and a forest of child
factors; a factor is unary (a table over the parent variable's states) or
pairwise (a table over parent and child states, plus the child variable's
subtree). -/

mutual
inductive VarTree : Type where
  | mk : ℕ → Option ℕ → FacForest → VarTree

inductive FacForest : Type where
  | nil : FacForest
  | cons : FacTree → FacForest → FacForest

inductive FacTree : Type where
  | unary : (ℕ → ℚ) → FacTree
  | pair : (ℕ → ℕ → ℚ) → VarTree → FacTree
end

def VarTree.states : VarTree → ℕ
  | .mk s _ _ => s

def VarTree.evid : VarTree → Option ℕ
  | .mk _ e _ => e

def VarTree.facs : VarTree → FacForest
  | .mk _ _ fs => fs

/-- The values a variable ranges over: its evidence value if observed,
otherwise all of its states. -/
def valuesOf (s : ℕ) (e : Option ℕ) : List ℕ :=
  match e with
  | some ev => [ev]
  | none => List.range s

mutual
/-- Modelled from the spec: sum-product message from a factor to its parent
variable, evaluated at parent state `s`. -/
def msgFac : FacTree → ℕ → ℚ
  | .unary t, s => t s
  | .pair t c, s =>
      match c with
      | .mk cs ce cfs => ((valuesOf cs ce).map (fun x => t s x * msgForest cfs x)).sum

/-- Modelled from the spec: product of the messages of a forest of child
factors, evaluated at the shared parent state `x`. -/
def msgForest : FacForest → ℕ → ℚ
  | .nil, _ => 1
  | .cons f fs, x => msgFac f x * msgForest fs x
end

/-- Modelled from the spec: the marginal of the root variable computed by
`initiateMessagePassing` followed by `computeMarginal`: for each root state,
the product of the incoming factor messages (times the root's own evidence
indicator, trivial in the notebook where the class variable is unobserved). -/
def computeMarginal (v : VarTree) : List ℚ :=
  (List.range v.states).map fun t =>
    (match v.evid with
     | some e => if t = e then (1 : ℚ) else 0
     | none => 1) * msgForest v.facs t

/-! ### Brute-force enumeration of configurations

An assignment mirrors the shape of a factor tree: one value per variable node.
`asnForest` enumerates every configuration of the unobserved variables (an
observed variable is fixed to its evidence value), and `wForest` is the product
of all factor-table entries of the subtree under a given assignment.  These
definitions perform no message passing: they enumerate full configurations and
multiply all tables, so their sum is the brute-force marginal of the claims. -/

mutual
inductive VarAsn : Type where
  | mk : ℕ → FacAsnList → VarAsn

inductive FacAsnList : Type where
  | nil : FacAsnList
  | cons : FacAsn → FacAsnList → FacAsnList

inductive FacAsn : Type where
  | unary : FacAsn
  | pair : VarAsn → FacAsn
end

mutual
def asnVar : VarTree → List VarAsn
  | .mk s e fs => (valuesOf s e).flatMap fun x => (asnForest fs).map (VarAsn.mk x)

def asnForest : FacForest → List FacAsnList
  | .nil => [FacAsnList.nil]
  | .cons f fs => (asnFac f).flatMap fun a => (asnForest fs).map (FacAsnList.cons a)

def asnFac : FacTree → List FacAsn
  | .unary _ => [FacAsn.unary]
  | .pair _ c => (asnVar c).map FacAsn.pair
end

mutual
def wFac : FacTree → ℕ → FacAsn → ℚ
  | .unary t, s, _ => t s
  | .pair t c, s, a =>
      match c, a with
      | .mk _ _ cfs, .pair (VarAsn.mk x as) => t s x * wForest cfs x as
      | _, .unary => 0

def wForest : FacForest → ℕ → FacAsnList → ℚ
  | .nil, _, _ => 1
  | .cons f fs, s, .cons a as => wFac f s a * wForest fs s as
  | .cons _ _, _, .nil => 0
end

/-- Brute-force (unnormalized) marginal of the root variable at root state `t`:
the sum, over all configurations of the unobserved non-root variables, of the
product of all factor tables, with the root fixed at `t`. -/
def bruteMarginal (v : VarTree) (t : ℕ) : ℚ :=
  ((asnForest v.facs).map (wForest v.facs t)).sum

/-! ### Message passing computes the brute-force marginal -/

mutual
theorem sum_wFac_eq_msgFac (f : FacTree) (s : ℕ) :
    ((asnFac f).map (wFac f s)).sum = msgFac f s := by
  cases f with
  | unary t => simp [asnFac, wFac, msgFac]
  | pair t c =>
    cases c with
    | mk cs ce cfs =>
      have hforest : ∀ x : ℕ, ((asnForest cfs).map (wForest cfs x)).sum = msgForest cfs x :=
        fun x => sum_wForest_eq_msgForest cfs x
      simp only [asnFac, msgFac, asnVar, List.map_flatMap, List.map_map]
      rw [sum_flatMap_eq]
      simp only [Function.comp_def, wFac, List.sum_map_mul_left, hforest]

theorem sum_wForest_eq_msgForest (fs : FacForest) (s : ℕ) :
    ((asnForest fs).map (wForest fs s)).sum = msgForest fs s := by
  cases fs with
  | nil => simp [asnForest, wForest, msgForest]
  | cons f fs =>
    have hf := sum_wFac_eq_msgFac f s
    have hfs := sum_wForest_eq_msgForest fs s
    simp only [asnForest, msgForest, List.map_flatMap, List.map_map]
    rw [sum_flatMap_eq]
    simp only [Function.comp_def, wForest, List.sum_map_mul_left, hfs,
      List.sum_map_mul_right, hf]
end

/-- For an unobserved root, the message-passing marginal list is exactly the
list of brute-force marginals over the root's states. -/
theorem computeMarginal_eq_brute (v : VarTree) (hroot : v.evid = none) :
    computeMarginal v = (List.range v.states).map (bruteMarginal v) := by
  unfold computeMarginal bruteMarginal
  rw [hroot]
  simp only [one_mul]
  congr 1
  funext t
  exact (sum_wForest_eq_msgForest v.facs t).symm

/-! ## Images and the evidence computed from them

An MNIST image is a 20×20 array of pixel values (binary: black or white).  It
is embedded as a function of the row and column index. -/

def Img : Type := ℕ → ℕ → ℕ

/-- Source `x[:10,:].sum()`: number of white pixels in the top 10 rows. -/
def sumTop (x : Img) : ℕ :=
  ((List.range 10).map fun r => ((List.range 20).map fun c => x r c).sum).sum

/-- Source `x[10:,:].sum()`: number of white pixels in the bottom 10 rows. -/
def sumBot (x : Img) : ℕ :=
  ((List.range 10).map fun r => ((List.range 20).map fun c => x (10 + r) c).sum).sum

/-- Source `x.ravel()[f]` for a 20×20 image: row-major flattening. -/
def ravelPix (x : Img) (f : ℕ) : ℕ := x (f / 20) (f % 20)

/-- Source `xsub[g, f]`: the image is cut into 16 patches of size 5×5 (the numpy
split/stack/reshape pipeline of the hierarchical cells orders the groups
row-chunk-major, `g = 4 * rowchunk + colchunk`, and flattens each patch
row-major, `f = 5 * r + c`), so entry `f` of patch `g` is pixel
`(5*(g/4) + f/5, 5*(g%4) + f%5)`. -/
def subPix (x : Img) (g f : ℕ) : ℕ := x (5 * (g / 4) + f / 5) (5 * (g % 4) + f % 5)

/-! ## The three models as factor trees

Each model of the notebook is the rooted factor tree with the class variable
`VT` (10 states, no evidence) at the root.  The probability tables are
parameters (they are computed from the training data; their values are
irrelevant to the exactness of inference). -/

def facForestOf : List FacTree → FacForest
  | [] => .nil
  | f :: fs => .cons f (facForestOf fs)

/-- Example model: `VT` (10 states) with factors `FT` over `[VT]`, `FXT1` over
`[VT, VX1]` (201 states, evidence `x[:10,:].sum()`), `FXT2` over `[VT, VX2]`
(201 states, evidence `x[10:,:].sum()`). -/
def exampleModel (pt : ℕ → ℚ) (pxt1 pxt2 : ℕ → ℕ → ℚ) (x : Img) : VarTree :=
  .mk 10 none (facForestOf
    [ .unary pt,
      .pair pxt1 (.mk 201 (some (sumTop x)) .nil),
      .pair pxt2 (.mk 201 (some (sumBot x)) .nil) ])

/-- The `predict` function of the example cell: set the evidence of `VX1` and `VX2` from the
image, run message passing from `VT`, and return the argmax of the marginal. -/
def predictExample (pt : ℕ → ℚ) (pxt1 pxt2 : ℕ → ℕ → ℚ) (x : Img) : ℕ :=
  argmaxIdx (computeMarginal (exampleModel pt pxt1 pxt2 x))

/-- Shallow model: `VT` (10 states) with `FT` over `[VT]` and, for each of the
400 pixels, `FXT[f]` over `[VT, VX[f]]` (2 states, evidence `x.ravel()[f]`). -/
def shallowModel (pt : ℕ → ℚ) (pxt : ℕ → ℕ → ℕ → ℚ) (x : Img) : VarTree :=
  .mk 10 none (facForestOf (FacTree.unary pt ::
    (List.range 400).map fun f =>
      FacTree.pair (pxt f) (.mk 2 (some (ravelPix x f)) .nil)))

/-- The `predict` function of the shallow cell. -/
def predictShallow (pt : ℕ → ℚ) (pxt : ℕ → ℕ → ℕ → ℚ) (x : Img) : ℕ :=
  argmaxIdx (computeMarginal (shallowModel pt pxt x))

/-- Hierarchical model: `VT` (10 states) with `FT` over `[VT]` and, for each of
the 16 groups, `FZT[g]` over `[VT, VZ[g]]` (12 subclass states, latent), where
`VZ[g]` carries, for each of the 25 patch pixels, `FXT[g][f]` over
`[VZ[g], VX[g][f]]` (2 states, evidence `xsub[g, f]`). -/
def hierModel (pt : ℕ → ℚ) (pzt : ℕ → ℕ → ℕ → ℚ) (pxt : ℕ → ℕ → ℕ → ℕ → ℚ)
    (x : Img) : VarTree :=
  .mk 10 none (facForestOf (FacTree.unary pt ::
    (List.range 16).map fun g =>
      FacTree.pair (pzt g) (.mk 12 none (facForestOf
        ((List.range 25).map fun f =>
          FacTree.pair (pxt g f) (.mk 2 (some (subPix x g f)) .nil))))))

/-- The `predict` function of the hierarchical cell. -/
def predictHier (pt : ℕ → ℚ) (pzt : ℕ → ℕ → ℕ → ℚ) (pxt : ℕ → ℕ → ℕ → ℕ → ℚ)
    (x : Img) : ℕ :=
  argmaxIdx (computeMarginal (hierModel pt pzt pxt x))

/-- C1: for every image, each of the three `predict` functions returns the
argmax over the 10 class states of the exact (brute-force) posterior marginal
of `VT` given the evidence, and the message-passing marginal equals the
brute-force marginal (here with rescaling constant 1). -/
theorem claim_C1 (pt : ℕ → ℚ) (pxt1 pxt2 : ℕ → ℕ → ℚ) (pts : ℕ → ℚ)
    (pxts : ℕ → ℕ → ℕ → ℚ) (pth : ℕ → ℚ) (pzth : ℕ → ℕ → ℕ → ℚ)
    (pxth : ℕ → ℕ → ℕ → ℕ → ℚ) (x : Img) :
    (computeMarginal (exampleModel pt pxt1 pxt2 x) =
        (List.range 10).map (bruteMarginal (exampleModel pt pxt1 pxt2 x)) ∧
      predictExample pt pxt1 pxt2 x =
        argmaxIdx ((List.range 10).map (bruteMarginal (exampleModel pt pxt1 pxt2 x)))) ∧
    (computeMarginal (shallowModel pts pxts x) =
        (List.range 10).map (bruteMarginal (shallowModel pts pxts x)) ∧
      predictShallow pts pxts x =
        argmaxIdx ((List.range 10).map (bruteMarginal (shallowModel pts pxts x)))) ∧
    (computeMarginal (hierModel pth pzth pxth x) =
        (List.range 10).map (bruteMarginal (hierModel pth pzth pxth x)) ∧
      predictHier pth pzth pxth x =
        argmaxIdx ((List.range 10).map (bruteMarginal (hierModel pth pzth pxth x)))) := by
  have h1 : computeMarginal (exampleModel pt pxt1 pxt2 x) =
      (List.range 10).map (bruteMarginal (exampleModel pt pxt1 pxt2 x)) :=
    computeMarginal_eq_brute (exampleModel pt pxt1 pxt2 x) rfl
  have h2 : computeMarginal (shallowModel pts pxts x) =
      (List.range 10).map (bruteMarginal (shallowModel pts pxts x)) :=
    computeMarginal_eq_brute (shallowModel pts pxts x) rfl
  have h3 : computeMarginal (hierModel pth pzth pxth x) =
      (List.range 10).map (bruteMarginal (hierModel pth pzth pxth x)) :=
    computeMarginal_eq_brute (hierModel pth pzth pxth x) rfl
  exact ⟨⟨h1, congrArg argmaxIdx h1⟩, ⟨h2, congrArg argmaxIdx h2⟩,
    ⟨h3, congrArg argmaxIdx h3⟩⟩

/-! ## Stateful `predict`: the mutable evidence fields

The notebook's `predict` functions mutate the shared `VariableNode.evidence`
fields before running message passing.  Each model's mutable evidence state is
embedded explicitly; `predict` becomes a state transformer returning the new
state and the predicted class.  The class variable `VT` (and, in the
hierarchical model, the latent `VZ[g]`) are never assigned evidence by any
`predict`; their fields start as `None` (modelled from the spec:
`graphical.py`'s `VariableNode` initializes evidence as unobserved) and stay
`None` under any interleaving of `predict` calls. -/

structure ExEvState where
  vtE : Option ℕ
  vx1E : Option ℕ
  vx2E : Option ℕ

/-- Stateful `predict` of the example cell: assigns `VX1.evidence` and
`VX2.evidence` from the image, then runs message passing from `VT`. -/
def predictExampleSt (pt : ℕ → ℚ) (pxt1 pxt2 : ℕ → ℕ → ℚ) (s : ExEvState)
    (x : Img) : ExEvState × ℕ :=
  let s2 : ExEvState := { s with vx1E := some (sumTop x), vx2E := some (sumBot x) }
  (s2, argmaxIdx (computeMarginal (.mk 10 s2.vtE (facForestOf
    [ .unary pt,
      .pair pxt1 (.mk 201 s2.vx1E .nil),
      .pair pxt2 (.mk 201 s2.vx2E .nil) ]))))

structure ShEvState where
  vtE : Option ℕ
  vxE : ℕ → Option ℕ

/-- Stateful `predict` of the shallow cell: assigns `VX[f].evidence` for each
of the 400 pixels, then runs message passing from `VT`. -/
def predictShallowSt (pt : ℕ → ℚ) (pxt : ℕ → ℕ → ℕ → ℚ) (s : ShEvState)
    (x : Img) : ShEvState × ℕ :=
  let s2 : ShEvState :=
    { s with vxE := fun f => if f < 400 then some (ravelPix x f) else s.vxE f }
  (s2, argmaxIdx (computeMarginal (.mk 10 s2.vtE (facForestOf (FacTree.unary pt ::
    (List.range 400).map fun f => FacTree.pair (pxt f) (.mk 2 (s2.vxE f) .nil))))))

structure HiEvState where
  vtE : Option ℕ
  vzE : ℕ → Option ℕ
  vxE : ℕ → ℕ → Option ℕ

/-- Stateful `predict` of the hierarchical cell: assigns `VX[g][f].evidence`
for each of the 16 × 25 patch pixels, then runs message passing from `VT`. -/
def predictHierSt (pt : ℕ → ℚ) (pzt : ℕ → ℕ → ℕ → ℚ) (pxt : ℕ → ℕ → ℕ → ℕ → ℚ)
    (s : HiEvState) (x : Img) : HiEvState × ℕ :=
  let s2 : HiEvState :=
    { s with vxE := fun g f =>
        if g < 16 ∧ f < 25 then some (subPix x g f) else s.vxE g f }
  (s2, argmaxIdx (computeMarginal (.mk 10 s2.vtE (facForestOf (FacTree.unary pt ::
    (List.range 16).map fun g =>
      FacTree.pair (pzt g) (.mk 12 (s2.vzE g) (facForestOf
        ((List.range 25).map fun f =>
          FacTree.pair (pxt g f) (.mk 2 (s2.vxE g f) .nil)))))))))

/-- C6: each `predict` is deterministic and insensitive to prior calls: it
never writes the evidence fields of `VT` (or `VZ[g]`), and on any two evidence
states in which those never-written fields are still unobserved — in particular
on any states produced by earlier `predict` calls, which only overwrite the
`VX` fields — it returns the same class index for the same image. -/
theorem claim_C6 (pt : ℕ → ℚ) (pxt1 pxt2 : ℕ → ℕ → ℚ) (pts : ℕ → ℚ)
    (pxts : ℕ → ℕ → ℕ → ℚ) (pth : ℕ → ℚ) (pzth : ℕ → ℕ → ℕ → ℚ)
    (pxth : ℕ → ℕ → ℕ → ℕ → ℚ) (x : Img)
    (s t : ExEvState) (u v : ShEvState) (p q : HiEvState)
    (hs : s.vtE = none) (ht : t.vtE = none)
    (hu : u.vtE = none) (hv : v.vtE = none)
    (hp : p.vtE = none) (hq : q.vtE = none)
    (hpz : ∀ g, p.vzE g = none) (hqz : ∀ g, q.vzE g = none) :
    ((predictExampleSt pt pxt1 pxt2 s x).1.vtE = s.vtE ∧
      (predictExampleSt pt pxt1 pxt2 s x).2 = (predictExampleSt pt pxt1 pxt2 t x).2) ∧
    ((predictShallowSt pts pxts u x).1.vtE = u.vtE ∧
      (predictShallowSt pts pxts u x).2 = (predictShallowSt pts pxts v x).2) ∧
    ((predictHierSt pth pzth pxth p x).1.vtE = p.vtE ∧
      (∀ g, (predictHierSt pth pzth pxth p x).1.vzE g = p.vzE g) ∧
      (predictHierSt pth pzth pxth p x).2 = (predictHierSt pth pzth pxth q x).2) := by
  refine ⟨⟨rfl, ?_⟩, ⟨rfl, ?_⟩, ⟨rfl, fun g => rfl, ?_⟩⟩
  · simp only [predictExampleSt, hs, ht]
  · simp only [predictShallowSt, hu, hv]
    have hlist : (List.range 400).map (fun f =>
          FacTree.pair (pxts f)
            (VarTree.mk 2 (if f < 400 then some (ravelPix x f) else u.vxE f) FacForest.nil)) =
        (List.range 400).map (fun f =>
          FacTree.pair (pxts f)
            (VarTree.mk 2 (if f < 400 then some (ravelPix x f) else v.vxE f) FacForest.nil)) := by
      apply List.map_congr_left
      intro f hf
      rw [List.mem_range] at hf
      simp [hf]
    rw [hlist]
  · simp only [predictHierSt, hp, hq]
    have hlist : (List.range 16).map (fun g =>
          FacTree.pair (pzth g) (VarTree.mk 12 (p.vzE g) (facForestOf
            ((List.range 25).map fun f => FacTree.pair (pxth g f)
              (VarTree.mk 2 (if g < 16 ∧ f < 25 then some (subPix x g f) else p.vxE g f)
                FacForest.nil))))) =
        (List.range 16).map (fun g =>
          FacTree.pair (pzth g) (VarTree.mk 12 (q.vzE g) (facForestOf
            ((List.range 25).map fun f => FacTree.pair (pxth g f)
              (VarTree.mk 2 (if g < 16 ∧ f < 25 then some (subPix x g f) else q.vxE g f)
                FacForest.nil))))) := by
      apply List.map_congr_left
      intro g hg
      rw [List.mem_range] at hg
      have hinner : (List.range 25).map (fun f => FacTree.pair (pxth g f)
            (VarTree.mk 2 (if g < 16 ∧ f < 25 then some (subPix x g f) else p.vxE g f)
              FacForest.nil)) =
          (List.range 25).map (fun f => FacTree.pair (pxth g f)
            (VarTree.mk 2 (if g < 16 ∧ f < 25 then some (subPix x g f) else q.vxE g f)
              FacForest.nil)) := by
        apply List.map_congr_left
        intro f hf
        rw [List.mem_range] at hf
        simp [hg, hf]
      rw [hpz g, hqz g, hinner]
    rw [hlist]

/-- Witness for C6 at a concrete instance: constant tables, the all-white
image, the freshly initialized evidence state on one side and an evidence state
left behind by an earlier `predict` call on the other. -/
theorem claim_C6_wit :
    (({ vtE := none, vx1E := none, vx2E := none } : ExEvState).vtE = none) ∧
    (predictExampleSt (fun _ => 1) (fun _ _ => 1) (fun _ _ => 1)
        { vtE := none, vx1E := none, vx2E := none } (fun _ _ => 1)).2 =
      (predictExampleSt (fun _ => 1) (fun _ _ => 1) (fun _ _ => 1)
        { vtE := none, vx1E := some 7, vx2E := some 9 } (fun _ _ => 1)).2 := by
  refine ⟨rfl, ?_⟩
  exact (claim_C6 (fun _ => 1) (fun _ _ => 1) (fun _ _ => 1) (fun _ => 1)
    (fun _ _ _ => 1) (fun _ => 1) (fun _ _ _ => 1) (fun _ _ _ _ => 1)
    (fun _ _ => 1)
    { vtE := none, vx1E := none, vx2E := none }
    { vtE := none, vx1E := some 7, vx2E := some 9 }
    { vtE := none, vxE := fun _ => none } { vtE := none, vxE := fun _ => none }
    { vtE := none, vzE := fun _ => none, vxE := fun _ _ => none }
    { vtE := none, vzE := fun _ => none, vxE := fun _ _ => none }
    rfl rfl rfl rfl rfl rfl (fun _ => rfl) (fun _ => rfl)).1.2

/-! ## C9: the assigned evidence values lie in the state ranges -/

/-- C9: for a binary image, the evidence assigned by the three `predict`
functions is in range: the top/bottom pixel sums are below the 201 levels of
`VX1`/`VX2`, and each per-pixel evidence value is below the 2 states of its
`VX` node. -/
theorem claim_C9 (x : Img) (f g p : ℕ)
    (hx : ∀ r c, r < 20 → c < 20 → x r c = 0 ∨ x r c = 1)
    (hf : f < 400) (hg : g < 16) (hp : p < 25) :
    sumTop x < 201 ∧ sumBot x < 201 ∧ ravelPix x f < 2 ∧ subPix x g p < 2 := by
  have hx1 : ∀ r c, r < 20 → c < 20 → x r c ≤ 1 := by
    intro r c hr hc
    rcases hx r c hr hc with h | h <;> omega
  have hrow : ∀ r : ℕ, r < 20 → ((List.range 20).map fun c => x r c).sum ≤ 20 := by
    intro r hr
    calc ((List.range 20).map fun c => x r c).sum
        ≤ ((List.range 20).map fun c => x r c).length • 1 := by
          apply List.sum_le_card_nsmul
          intro v hv
          simp only [List.mem_map, List.mem_range] at hv
          obtain ⟨c, hc, rfl⟩ := hv
          exact hx1 r c hr hc
      _ = 20 := by simp
  refine ⟨?_, ?_, ?_, ?_⟩
  · have : sumTop x ≤ 200 := by
      calc sumTop x
          ≤ ((List.range 10).map fun r => ((List.range 20).map fun c => x r c).sum).length
              • 20 := by
            apply List.sum_le_card_nsmul
            intro v hv
            simp only [List.mem_map, List.mem_range] at hv
            obtain ⟨r, hr, rfl⟩ := hv
            exact hrow r (by omega)
        _ = 200 := by simp
    omega
  · have : sumBot x ≤ 200 := by
      calc sumBot x
          ≤ ((List.range 10).map fun r => ((List.range 20).map fun c => x (10 + r) c).sum).length
              • 20 := by
            apply List.sum_le_card_nsmul
            intro v hv
            simp only [List.mem_map, List.mem_range] at hv
            obtain ⟨r, hr, rfl⟩ := hv
            exact hrow (10 + r) (by omega)
        _ = 200 := by simp
    omega
  · have := hx1 (f / 20) (f % 20) (by omega) (by omega)
    unfold ravelPix
    omega
  · have := hx1 (5 * (g / 4) + p / 5) (5 * (g % 4) + p % 5) (by omega) (by omega)
    unfold subPix
    omega

/-- Witness for C9 at the all-white image and pixel indices 399, 15, 24. -/
theorem claim_C9_wit :
    sumTop (fun _ _ => 1) < 201 ∧ sumBot (fun _ _ => 1) < 201 ∧
      ravelPix (fun _ _ => 1) 399 < 2 ∧ subPix (fun _ _ => 1) 15 24 < 2 :=
  claim_C9 (fun _ _ => 1) 399 15 24 (fun _ _ _ _ => Or.inr rfl)
    (by decide) (by decide) (by decide)

/-! ## The empirical factor tables

The training data is a number `N` of examples, each with a 20×20 image
`X i`, a class label `T i` (0..9), and per-group subclass labels `Z i g`
(0..11, used in the hierarchical cell).  The table definitions below mirror,
cell by cell, the numpy code of `src/unnamed/part_000`; real-valued arrays are
embedded over `ℚ` (with `a / 0 = 0` as `ℚ`'s division; the theorems that need a
nonzero denominator carry it as a hypothesis). -/

/-- Source `(T==cl).sum()`: number of training examples of class `cl`. -/
def countT (N : ℕ) (T : ℕ → ℕ) (cl : ℕ) : ℕ :=
  ((List.range N).filter fun i => T i == cl).length

/-- Source `PT = (nbexamples+1) / (nbexamples+1).sum()` (all three cells). -/
def PT (N : ℕ) (T : ℕ → ℕ) (cl : ℕ) : ℚ :=
  ((countT N T cl : ℚ) + 1) / (((List.range 10).map fun c => (countT N T c : ℚ) + 1).sum)

/-- Source `nbexamples[cl,lv] = (Xtop[T==cl]==lv).sum()` (example cell, top half). -/
def countTop (N : ℕ) (X : ℕ → Img) (T : ℕ → ℕ) (cl lv : ℕ) : ℕ :=
  ((List.range N).filter fun i => T i == cl && sumTop (X i) == lv).length

/-- Source `nbexamples[cl,lv] = (Xbot[T==cl]==lv).sum()` (example cell, bottom half). -/
def countBot (N : ℕ) (X : ℕ → Img) (T : ℕ → ℕ) (cl lv : ℕ) : ℕ :=
  ((List.range N).filter fun i => T i == cl && sumBot (X i) == lv).length

/-- Source `PXT1 = (nbexamples+1) / (nbexamples+1).sum(axis=1)` (example cell). -/
def PXT1 (N : ℕ) (X : ℕ → Img) (T : ℕ → ℕ) (cl lv : ℕ) : ℚ :=
  ((countTop N X T cl lv : ℚ) + 1) /
    (((List.range 201).map fun l => (countTop N X T cl l : ℚ) + 1).sum)

/-- Source `PXT2 = (nbexamples+1) / (nbexamples+1).sum(axis=1)` (example cell). -/
def PXT2 (N : ℕ) (X : ℕ → Img) (T : ℕ → ℕ) (cl lv : ℕ) : ℚ :=
  ((countBot N X T cl lv : ℚ) + 1) /
    (((List.range 201).map fun l => (countBot N X T cl l : ℚ) + 1).sum)

/-- Shallow cell, `PXT[:,cl,1] = X[cl==T].sum(axis=0).ravel() / (cl==T).sum()`:
entry `(f, cl, 1)` of the shallow table. -/
def PXTsh1 (N : ℕ) (X : ℕ → Img) (T : ℕ → ℕ) (f cl : ℕ) : ℚ :=
  ((((List.range N).filter fun i => T i == cl).map fun i =>
      (ravelPix (X i) f : ℚ)).sum) / (countT N T cl : ℚ)

/-- Shallow cell, `PXT[:,cl,0] = 1. - PXT[:,cl,1]`. -/
def PXTsh0 (N : ℕ) (X : ℕ → Img) (T : ℕ → ℕ) (f cl : ℕ) : ℚ :=
  1 - PXTsh1 N X T f cl

/-- Hierarchical cell: number of examples of class `cl` whose group-`g`
subclass is `sc` (`(Z[T==cl][:,:,newaxis] == arange(nbsubclss)).sum(axis=0)`). -/
def countZ (N : ℕ) (T : ℕ → ℕ) (Z : ℕ → ℕ → ℕ) (g cl sc : ℕ) : ℕ :=
  ((List.range N).filter fun i => T i == cl && Z i g == sc).length

/-- Hierarchical cell, `PZT[:,cl,:]` normalized over subclasses. -/
def PZT (N : ℕ) (T : ℕ → ℕ) (Z : ℕ → ℕ → ℕ) (g cl sc : ℕ) : ℚ :=
  (countZ N T Z g cl sc : ℚ) /
    (((List.range 12).map fun s => (countZ N T Z g cl s : ℚ)).sum)

/-- Hierarchical cell, `ind[:,0][grp==ind[:,1]]`: the (increasing) list of
example indices `i` with `Z[i,grp] == sc` (`ind = np.argwhere(Z == sc)` lists
`(example, group)` pairs in row-major order, so after selecting `group == grp`
the first column is the sorted list of matching example indices). -/
def matchIdx (N : ℕ) (Z : ℕ → ℕ → ℕ) (g sc : ℕ) : List ℕ :=
  (List.range N).filter fun i => Z i g == sc

/-- Hierarchical cell, `subX[ind[:,0][grp==ind[:,1]], grp].sum(axis=0).ravel()[f]`:
number of matching patches in which pixel `f` of patch `g` is white. -/
def whiteSum (N : ℕ) (X : ℕ → Img) (Z : ℕ → ℕ → ℕ) (g f sc : ℕ) : ℕ :=
  ((matchIdx N Z g sc).map fun i => subPix (X i) g f).sum

/-- Hierarchical cell, `ind[:,0][grp==ind[:,1]].sum()`: the SUM OF THE MATCHING
EXAMPLE INDICES (this is what the code divides by — not the number of matching
patches). -/
def idxSum (N : ℕ) (Z : ℕ → ℕ → ℕ) (g sc : ℕ) : ℕ :=
  (matchIdx N Z g sc).sum

/-- Hierarchical cell, `PXT[grp,:,sc,1]`: white counts divided by
`ind[:,0][grp==ind[:,1]].sum() if ... > 0 else 1.`. -/
def PXThi1 (N : ℕ) (X : ℕ → Img) (Z : ℕ → ℕ → ℕ) (g f sc : ℕ) : ℚ :=
  (whiteSum N X Z g f sc : ℚ) /
    (if 0 < idxSum N Z g sc then (idxSum N Z g sc : ℚ) else 1)

/-- Hierarchical cell, `PXT[grp,:,sc,0] = 1. - PXT[grp,:,sc,1]`. -/
def PXThi0 (N : ℕ) (X : ℕ → Img) (Z : ℕ → ℕ → ℕ) (g f sc : ℕ) : ℚ :=
  1 - PXThi1 N X Z g f sc

/-- The claim's (and the notebook task's) intended value of `PXT[grp,f,sc,1]`:
the fraction of training patches of group `grp` with subclass label `sc` in
which pixel `f` is white.  This definition follows the claim's words, for
comparison with `PXThi1` taken from the code. -/
def fracWhite (N : ℕ) (X : ℕ → Img) (Z : ℕ → ℕ → ℕ) (g f sc : ℕ) : ℚ :=
  (whiteSum N X Z g f sc : ℚ) / ((matchIdx N Z g sc).length : ℚ)

/-- The constant `1e-20`, the additive safeguard added before `np.log`. -/
def eps : ℚ := 1 / 10 ^ 20

/-! ### C3: the hierarchical `PXT` divides by the wrong quantity

Failing training set: `N = 3` all-white binary images; examples 1 and 2 (and
only those) have subclass 0 in group 0.  The matching example indices are
`[1, 2]`, so the code divides the white count 2 by `1 + 2 = 3` instead of by
the number of matching patches, 2. -/

def Xbug : ℕ → Img := fun _ _ _ => 1

def Zbug3 : ℕ → ℕ → ℕ := fun i g => if (i = 1 ∨ i = 2) ∧ g = 0 then 0 else 1

/-- C3 (code bug): on the failing training set, the code's `PXT[0,0,0,1]` is
`2/3` — the white count divided by the sum of the matching example indices —
whereas the fraction of matching patches with pixel 0 white (the most likely
value given the data, which the notebook task asks for) is `1`. -/
theorem claim_C3 :
    PXThi1 3 Xbug Zbug3 0 0 0 = 2 / 3 ∧ fracWhite 3 Xbug Zbug3 0 0 0 = 1 ∧
      PXThi1 3 Xbug Zbug3 0 0 0 ≠ fracWhite 3 Xbug Zbug3 0 0 0 := by
  have h1 : whiteSum 3 Xbug Zbug3 0 0 0 = 2 := by decide
  have h2 : idxSum 3 Zbug3 0 0 = 3 := by decide
  have h3 : (matchIdx 3 Zbug3 0 0).length = 2 := by decide
  refine ⟨?_, ?_, ?_⟩ <;>
    simp only [PXThi1, fracWhite, h1, h2, h3] <;> norm_num

/-! ### C4: positivity of the arguments of `np.log` -/

def Zbug2 : ℕ → ℕ → ℕ := fun _ g => if g = 0 then 0 else 1

/-- Counterexample to C4 as stated: with training examples 0 and 1 (and only
those) matching group 0 / subclass 0 and pixel 0 white in both, the code
divides the white count 2 by the index sum `0 + 1 = 1`, so
`PXT[0,0,0,1] = 2` and `PXT[0,0,0,0] = 1 - 2 = -1`; the entry
`PXT[0,0,0,0] + 1e-20` passed to `np.log` is negative, not strictly
positive. -/
theorem claim_C4_cex : PXThi0 2 Xbug Zbug2 0 0 0 + eps < 0 := by
  have h1 : whiteSum 2 Xbug Zbug2 0 0 0 = 2 := by decide
  have h2 : idxSum 2 Zbug2 0 0 = 1 := by decide
  simp only [PXThi0, PXThi1, eps, h1, h2]
  norm_num

/-- C4 (amended): at every other place a logarithm is taken the smoothing does
make the argument strictly positive — `PT`, `PXT1`, `PXT2`, the shallow
`PXT + 1e-20` (both pixel states, for binary training images and a class that
occurs in the training set), `PZT + 1e-20`, and the hierarchical white-state
entries `PXT[g,f,sc,1] + 1e-20`; only the hierarchical black-state entries
`PXT[g,f,sc,0] + 1e-20` can be negative (see the counterexample). -/
theorem claim_C4 (N : ℕ) (X : ℕ → Img) (T : ℕ → ℕ) (Z : ℕ → ℕ → ℕ)
    (cl lv f g sc p : ℕ)
    (hX : ∀ i r c, i < N → r < 20 → c < 20 → X i r c = 0 ∨ X i r c = 1)
    (hcl : 0 < countT N T cl) (hf : f < 400) :
    0 < PT N T cl ∧ 0 < PXT1 N X T cl lv ∧ 0 < PXT2 N X T cl lv ∧
      0 < PXTsh1 N X T f cl + eps ∧ 0 < PXTsh0 N X T f cl + eps ∧
      0 < PZT N T Z g cl sc + eps ∧ 0 < PXThi1 N X Z g p sc + eps := by
  have heps : 0 < eps := by norm_num [eps]
  have hsumpos : ∀ (n : ℕ) (c : ℕ → ℕ),
      0 < (((List.range n.succ).map fun l => (c l : ℚ) + 1).sum) := by
    intro n c
    apply List.sum_pos
    · intro q hq
      simp only [List.mem_map] at hq
      obtain ⟨l, _, rfl⟩ := hq
      positivity
    · simp
  refine ⟨?_, ?_, ?_, ?_, ?_, ?_, ?_⟩
  · exact div_pos (by positivity) (hsumpos 9 fun c => countT N T c)
  · exact div_pos (by positivity) (hsumpos 200 fun l => countTop N X T cl l)
  · exact div_pos (by positivity) (hsumpos 200 fun l => countBot N X T cl l)
  · have : (0 : ℚ) ≤ PXTsh1 N X T f cl := by
      apply div_nonneg _ (by positivity)
      apply List.sum_nonneg
      intro q hq
      simp only [List.mem_map] at hq
      obtain ⟨i, _, rfl⟩ := hq
      positivity
    linarith
  · have hle : PXTsh1 N X T f cl ≤ 1 := by
      unfold PXTsh1
      rw [div_le_one (by exact_mod_cast hcl)]
      calc ((((List.range N).filter fun i => T i == cl).map fun i =>
            (ravelPix (X i) f : ℚ)).sum)
          ≤ (((List.range N).filter fun i => T i == cl).map fun i =>
            (ravelPix (X i) f : ℚ)).length • (1 : ℚ) := by
            apply List.sum_le_card_nsmul
            intro q hq
            simp only [List.mem_map, List.mem_filter, List.mem_range] at hq
            obtain ⟨i, ⟨hiN, _⟩, rfl⟩ := hq
            have := hX i (f / 20) (f % 20) hiN (by omega) (by omega)
            unfold ravelPix
            rcases this with h | h <;> rw [h] <;> norm_num
      _ = countT N T cl := by
            simp [countT, nsmul_eq_mul, mul_one]
    unfold PXTsh0
    linarith
  · have : (0 : ℚ) ≤ PZT N T Z g cl sc := by
      apply div_nonneg (by positivity)
      apply List.sum_nonneg
      intro q hq
      simp only [List.mem_map] at hq
      obtain ⟨s, _, rfl⟩ := hq
      positivity
    linarith
  · have : (0 : ℚ) ≤ PXThi1 N X Z g p sc := by
      apply div_nonneg (by positivity)
      split <;> positivity
    linarith

/-- Witness for C4: ten training examples, one per class (class labels
`T i = i`), all-white binary images, all subclass labels 0. -/
theorem claim_C4_wit :
    0 < PT 10 (fun i => i) 0 ∧ 0 < PXT1 10 (fun _ => Xbug 0) (fun i => i) 0 0 ∧
      0 < PXT2 10 (fun _ => Xbug 0) (fun i => i) 0 0 ∧
      0 < PXTsh1 10 (fun _ => Xbug 0) (fun i => i) 0 0 + eps ∧
      0 < PXTsh0 10 (fun _ => Xbug 0) (fun i => i) 0 0 + eps ∧
      0 < PZT 10 (fun i => i) (fun _ _ => 0) 0 0 0 + eps ∧
      0 < PXThi1 10 (fun _ => Xbug 0) (fun _ _ => 0) 0 0 0 + eps :=
  claim_C4 10 (fun _ => Xbug 0) (fun i => i) (fun _ _ => 0) 0 0 0 0 0 0
    (fun _ _ _ _ _ _ => Or.inr rfl) (by decide) (by decide)

/-! ## A parent function with decreasing depth induces a tree

Generic infrastructure for C5: a graph whose adjacency is exactly
"one endpoint is the parent of the other", for a parent function under which a
depth measure strictly decreases and whose only orphan is the root, is
connected and acyclic. -/

section ParentTree

variable {α : Type}

/-- Ancestor chain of `y` (starting at `y`) following `par`, with fuel. -/
def chainF (par : α → Option α) : ℕ → α → List α
  | 0, y => [y]
  | n + 1, y =>
      y :: (match par y with
            | none => []
            | some p => chainF par n p)

theorem self_mem_chainF (par : α → Option α) (n : ℕ) (y : α) : y ∈ chainF par n y := by
  cases n <;> simp [chainF]

theorem chainF_of_none (par : α → Option α) {y : α} (h : par y = none) (m : ℕ) :
    chainF par m y = [y] := by
  cases m <;> simp [chainF, h]

theorem chainF_of_some (par : α → Option α) {y p : α} (h : par y = some p) (m : ℕ)
    (hm : 0 < m) : chainF par m y = y :: chainF par (m - 1) p := by
  cases m with
  | zero => omega
  | succ m => simp [chainF, h]

theorem dep_le_of_mem_chainF (par : α → Option α) (dep : α → ℕ)
    (hdep : ∀ x p, par x = some p → dep p < dep x) :
    ∀ (n : ℕ) (y z : α), z ∈ chainF par n y → dep z ≤ dep y := by
  intro n
  induction n with
  | zero =>
    intro y z hz
    simp only [chainF, List.mem_singleton] at hz
    exact le_of_eq (congrArg dep hz)
  | succ n ih =>
    intro y z hz
    simp only [chainF, List.mem_cons] at hz
    rcases hz with rfl | hz
    · exact le_refl _
    · cases hpy : par y with
      | none => rw [hpy] at hz; simp at hz
      | some p =>
        rw [hpy] at hz
        exact le_trans (ih p z hz) (le_of_lt (hdep y p hpy))

theorem chainF_fuel_eq (par : α → Option α) (dep : α → ℕ)
    (hdep : ∀ x p, par x = some p → dep p < dep x) :
    ∀ (d m n : ℕ) (y : α), dep y ≤ d → dep y ≤ m → dep y ≤ n →
      chainF par m y = chainF par n y := by
  intro d
  induction d with
  | zero =>
    intro m n y hd _ _
    cases hpy : par y with
    | none => rw [chainF_of_none par hpy, chainF_of_none par hpy]
    | some p => exact absurd (hdep y p hpy) (by omega)
  | succ d ih =>
    intro m n y hd hm hn
    cases hpy : par y with
    | none => rw [chainF_of_none par hpy, chainF_of_none par hpy]
    | some p =>
      have hp := hdep y p hpy
      cases hy0 : dep y with
      | zero => omega
      | succ k =>
        rw [chainF_of_some par hpy m (by omega), chainF_of_some par hpy n (by omega)]
        rw [ih (m - 1) (n - 1) p (by omega) (by omega) (by omega)]

/-- Ancestor chain with just enough fuel. -/
def chainD (par : α → Option α) (dep : α → ℕ) (y : α) : List α :=
  chainF par (dep y) y

theorem self_mem_chainD (par : α → Option α) (dep : α → ℕ) (y : α) :
    y ∈ chainD par dep y :=
  self_mem_chainF par (dep y) y

theorem dep_le_of_mem_chainD (par : α → Option α) (dep : α → ℕ)
    (hdep : ∀ x p, par x = some p → dep p < dep x) {y z : α}
    (hz : z ∈ chainD par dep y) : dep z ≤ dep y :=
  dep_le_of_mem_chainF par dep hdep (dep y) y z hz

theorem chainD_cons (par : α → Option α) (dep : α → ℕ)
    (hdep : ∀ x p, par x = some p → dep p < dep x) {y p : α} (h : par y = some p) :
    chainD par dep y = y :: chainD par dep p := by
  have hp := hdep y p h
  unfold chainD
  rw [chainF_of_some par h (dep y) (by omega)]
  rw [chainF_fuel_eq par dep hdep (dep p) (dep y - 1) (dep p) p le_rfl (by omega) le_rfl]

/-- Walking inside a graph preserves membership in any set closed under its
edges. -/
theorem mem_of_reachable {G : SimpleGraph α} {S : α → Prop}
    (hcl : ∀ a b, G.Adj a b → (S a ↔ S b)) {u v : α} (h : G.Reachable u v)
    (hu : S u) : S v := by
  obtain ⟨w⟩ := h
  induction w with
  | nil => exact hu
  | cons hadj _ ih => exact ih ((hcl _ _ hadj).mp hu)

/-- In the parent-edge graph, deleting the edge from `v` to its parent `w`
disconnects `v` from `w`: every vertex reachable from `v` still has `v` on its
ancestor chain. -/
theorem no_reach_of_parent (G : SimpleGraph α) (par : α → Option α) (dep : α → ℕ)
    (hadj : ∀ a b, G.Adj a b ↔ (par a = some b ∨ par b = some a))
    (hdep : ∀ x p, par x = some p → dep p < dep x) {v w : α}
    (hp : par v = some w) :
    ¬(G \ SimpleGraph.fromEdgeSet {s(v, w)}).Reachable v w := by
  intro hreach
  have hcl : ∀ a b, (G \ SimpleGraph.fromEdgeSet {s(v, w)}).Adj a b →
      (v ∈ chainD par dep a ↔ v ∈ chainD par dep b) := by
    intro a b hab
    rw [SimpleGraph.sdiff_adj, SimpleGraph.fromEdgeSet_adj] at hab
    obtain ⟨hGab, hne⟩ := hab
    have hanb : a ≠ b := G.ne_of_adj hGab
    have hkey : s(a, b) ≠ s(v, w) := fun he => hne ⟨by simp [he], hanb⟩
    rcases (hadj a b).mp hGab with hpa | hpb
    · rw [chainD_cons par dep hdep hpa, List.mem_cons]
      have hva : v ≠ a := by
        rintro rfl
        rw [hp] at hpa
        exact hkey (by simp at hpa; simp [hpa])
      simp [hva]
    · rw [chainD_cons par dep hdep hpb, List.mem_cons]
      have hvb : v ≠ b := by
        rintro rfl
        rw [hp] at hpb
        rw [Sym2.eq_swap] at hkey
        exact hkey (by simp at hpb; simp [hpb])
      simp [hvb]
  have hvw : v ∈ chainD par dep w :=
    mem_of_reachable hcl hreach (self_mem_chainD par dep v)
  have h1 := dep_le_of_mem_chainD par dep hdep hvw
  have h2 := hdep v w hp
  omega

/-- A graph whose adjacency relation is exactly the parent relation of a
depth-decreasing parent function with a single root is a tree. -/
theorem isTree_of_parent (G : SimpleGraph α) (r : α) (par : α → Option α) (dep : α → ℕ)
    (hadj : ∀ a b, G.Adj a b ↔ (par a = some b ∨ par b = some a))
    (hroot : ∀ x, par x = none → x = r)
    (hdep : ∀ x p, par x = some p → dep p < dep x) :
    G.IsTree := by
  have reach : ∀ (d : ℕ) (x : α), dep x ≤ d → G.Reachable x r := by
    intro d
    induction d with
    | zero =>
      intro x hx
      cases hp : par x with
      | none => rw [hroot x hp]
      | some p => exact absurd (hdep x p hp) (by omega)
    | succ d ih =>
      intro x hx
      cases hp : par x with
      | none => rw [hroot x hp]
      | some p =>
        have h1 := hdep x p hp
        exact (SimpleGraph.Adj.reachable ((hadj x p).mpr (Or.inl hp))).trans
          (ih p (by omega))
  constructor
  · have hne : Nonempty α := ⟨r⟩
    exact ⟨fun u v => (reach (dep u) u le_rfl).trans (reach (dep v) v le_rfl).symm⟩
  · rw [SimpleGraph.isAcyclic_iff_forall_adj_isBridge]
    intro v w hvw
    rw [SimpleGraph.isBridge_iff]
    refine ⟨hvw, ?_⟩
    rcases (hadj v w).mp hvw with hp | hp
    · exact no_reach_of_parent G par dep hadj hdep hp
    · intro hreach
      rw [Sym2.eq_swap] at hreach
      exact no_reach_of_parent G par dep hadj hdep hp hreach.symm

end ParentTree

/-! ## The constructed nodes and factors of the three models

Each cell constructs `VariableNode`s and `FactorNode`s; the node names are
embedded as inductive types, and each model's `FactorNode` constructions as a
list of (factor name, table dims, attached variable list), where the table
dims come from the numpy array shapes (`np.zeros([...])` and the slicing
applied before `np.log`). -/

def nbclasses : ℕ := 10
def nblevels1 : ℕ := 201
def nblevels2 : ℕ := 2
def nbfeats : ℕ := 400
def nbsubclss : ℕ := 12
def nbgroups : ℕ := 16
def nbgfeats : ℕ := 25

/-- Nodes of the example cell: `VT, VX1, VX2` and `FT, FXT1, FXT2`. -/
inductive N1 : Type where
  | vt | vx1 | vx2 | ft | fxt1 | fxt2
deriving DecidableEq, Fintype

/-- State counts of the example cell's `VariableNode`s (0 on factor names). -/
def states1 : N1 → ℕ
  | .vt => nbclasses
  | .vx1 => nblevels1
  | .vx2 => nblevels1
  | _ => 0

/-- The example cell's `FactorNode(...)` calls: `FT` with table `log(PT)`
(shape `[nbclasses]`) over `[VT]`; `FXT1`/`FXT2` with tables `log(PXT1)` /
`log(PXT2)` (shape `[nbclasses, nblevels]`) over `[VT, VX1]` / `[VT, VX2]`. -/
def facs1 : List (N1 × List ℕ × List N1) :=
  [ (.ft, [nbclasses], [.vt]),
    (.fxt1, [nbclasses, nblevels1], [.vt, .vx1]),
    (.fxt2, [nbclasses, nblevels1], [.vt, .vx2]) ]

/-- Nodes of the shallow cell: `VT`, `VX[f]` for the 400 pixels, `FT`,
`FXT[f]`. -/
inductive N2 : Type where
  | vt | vx (f : Fin 400) | ft | fxt (f : Fin 400)
deriving DecidableEq, Fintype

def states2 : N2 → ℕ
  | .vt => nbclasses
  | .vx _ => nblevels2
  | _ => 0

/-- The shallow cell's `FactorNode(...)` calls: `FT` as above;
`FXT[f]` with table `log(PXT[f] + 1e-20)` (shape `[nbclasses, nblevels]`,
`PXT` being `np.zeros([nbfeats, nbclasses, nblevels])`) over `[VT, VX[f]]`. -/
def facs2 : List (N2 × List ℕ × List N2) :=
  (.ft, [nbclasses], [.vt]) ::
    (List.finRange 400).map fun f =>
      (N2.fxt f, [nbclasses, nblevels2], [N2.vt, N2.vx f])

/-- Nodes of the hierarchical cell: `VT`, `VZ[g]` for the 16 groups,
`VX[g][f]` for the 16×25 patch pixels, and the factors `FT`, `FZT[g]`
(named `"FXT[g]"` in the code), `FXT[g][f]`. -/
inductive N3 : Type where
  | vt
  | vz (g : Fin 16)
  | vx (g : Fin 16) (f : Fin 25)
  | ft
  | fzt (g : Fin 16)
  | fxt (g : Fin 16) (f : Fin 25)
deriving DecidableEq, Fintype

def states3 : N3 → ℕ
  | .vt => nbclasses
  | .vz _ => nbsubclss
  | .vx _ _ => nblevels2
  | _ => 0

/-- The hierarchical cell's `FactorNode(...)` calls: `FT` as above; `FZT[g]`
with table `log(PZT[g] + 1e-20)` (shape `[nbclasses, nbsubclss]`, `PZT` being
`np.zeros([nbgroups, nbclasses, nbsubclss])`) over `[VT, VZ[g]]`; `FXT[g][f]`
with table `log(PXT[g,f] + 1e-20)` (shape `[nbsubclss, nblevels]`, `PXT` being
`np.zeros([nbgroups, nbgfeats, nbsubclss, nblevels])`) over
`[VZ[g], VX[g][f]]`. -/
def facs3 : List (N3 × List ℕ × List N3) :=
  (.ft, [nbclasses], [.vt]) ::
    (((List.finRange 16).map fun g =>
        (N3.fzt g, [nbclasses, nbsubclss], [N3.vt, N3.vz g])) ++
     ((List.finRange 16).flatMap fun g => (List.finRange 25).map fun f =>
        (N3.fxt g f, [nbsubclss, nblevels2], [N3.vz g, N3.vx g f])))

set_option maxRecDepth 8000 in
/-- C7: for every `FactorNode` constructed in any of the three models, the
shape of its log-table equals the sequence of state counts of its attached
variables; concretely the shapes are `(10,)`, `(10,201)`, `(10,2)`, `(10,12)`
and `(12,2)` for the respective factor families. -/
theorem claim_C7 :
    (∀ e ∈ facs1, e.2.1 = e.2.2.map states1) ∧
    (∀ e ∈ facs2, e.2.1 = e.2.2.map states2) ∧
    (∀ e ∈ facs3, e.2.1 = e.2.2.map states3) ∧
    facs1.map (fun e => e.2.1) = [[10], [10, 201], [10, 201]] ∧
    facs2.map (fun e => e.2.1) = [10] :: List.replicate 400 [10, 2] ∧
    facs3.map (fun e => e.2.1) =
      [10] :: (List.replicate 16 [10, 12] ++ List.replicate 400 [12, 2]) := by
  refine ⟨by decide, ?_, ?_, by decide, ?_, ?_⟩
  · intro e he
    simp only [facs2, List.mem_cons, List.mem_map] at he
    rcases he with rfl | ⟨f, _, rfl⟩ <;> rfl
  · intro e he
    simp only [facs3, List.mem_cons, List.mem_append, List.mem_map,
      List.mem_flatMap] at he
    rcases he with rfl | ⟨g, _, rfl⟩ | ⟨g, _, f, _, rfl⟩ <;> rfl
  · rfl
  · rfl

/-! ## C8: the number of constructed nodes -/

/-- All nodes constructed by the example cell (variables, then factors). -/
def nodes1 : List N1 := [.vt, .vx1, .vx2] ++ [.ft, .fxt1, .fxt2]

/-- All nodes constructed by the shallow cell. -/
def nodes2 : List N2 :=
  (N2.vt :: (List.finRange 400).map N2.vx) ++
    (N2.ft :: (List.finRange 400).map N2.fxt)

/-- All nodes constructed by the hierarchical cell. -/
def nodes3 : List N3 :=
  (N3.vt :: (((List.finRange 16).map N3.vz) ++
    ((List.finRange 16).flatMap fun g => (List.finRange 25).map (N3.vx g)))) ++
  (N3.ft :: (((List.finRange 16).map N3.fzt) ++
    ((List.finRange 16).flatMap fun g => (List.finRange 25).map (N3.fxt g))))

/-- C8: the three models have 6, 802 and 834 nodes respectively — each list of
constructed nodes is duplicate-free, exhausts the node type, and its length is
(well) under a thousand, i.e. at most a few hundred nodes. -/
theorem claim_C8 :
    nodes1.length = 6 ∧ nodes2.length = 802 ∧ nodes3.length = 834 ∧
    nodes1.Nodup ∧ nodes2.Nodup ∧ nodes3.Nodup ∧
    (∀ x : N1, x ∈ nodes1) ∧ (∀ x : N2, x ∈ nodes2) ∧ (∀ x : N3, x ∈ nodes3) ∧
    nodes1.length ≤ 1000 ∧ nodes2.length ≤ 1000 ∧ nodes3.length ≤ 1000 := by
  have hvx : Function.Injective N2.vx := fun a b h => by injection h
  have hfxt : Function.Injective N2.fxt := fun a b h => by injection h
  have hvz : Function.Injective N3.vz := fun a b h => by injection h
  have hfzt : Function.Injective N3.fzt := fun a b h => by injection h
  have hvx3 : ∀ g : Fin 16, Function.Injective (N3.vx g) := fun g a b h => by injection h
  have hfxt3 : ∀ g : Fin 16, Function.Injective (N3.fxt g) := fun g a b h => by injection h
  refine ⟨by simp [nodes1],
    by simp [nodes2],
    by simp [nodes3, Function.comp_def, List.map_const', List.sum_replicate, smul_eq_mul],
    by decide, ?_, ?_, by decide, ?_, ?_,
    by simp [nodes1],
    by simp [nodes2],
    by simp [nodes3, Function.comp_def, List.map_const', List.sum_replicate, smul_eq_mul]⟩
  · simp only [nodes2, List.nodup_append, List.nodup_cons, List.mem_map,
      List.Disjoint, List.mem_cons]
    refine ⟨⟨?_, (List.nodup_finRange 400).map hvx⟩,
      ⟨?_, (List.nodup_finRange 400).map hfxt⟩, ?_⟩
    · rintro ⟨f, _, h⟩; cases h
    · rintro ⟨f, _, h⟩; cases h
    · rintro a (rfl | ⟨f, _, rfl⟩) (h | ⟨f2, _, h⟩) <;> cases h
  · simp only [nodes3, List.nodup_append, List.nodup_cons, List.mem_map,
      List.mem_append, List.mem_flatMap, List.Disjoint, List.mem_cons]
    have hnx : ((List.finRange 16).flatMap fun g =>
        (List.finRange 25).map (N3.vx g)).Nodup := by
      rw [List.nodup_flatMap]
      refine ⟨fun g _ => (List.nodup_finRange 25).map (hvx3 g), ?_⟩
      refine List.Pairwise.imp_of_mem ?_ (List.nodup_finRange 16)
      intro g h _ _ hgh
      intro a ha hb
      simp only [List.mem_map] at ha hb
      obtain ⟨f1, _, rfl⟩ := ha
      obtain ⟨f2, _, hb⟩ := hb
      injection hb with h1 h2
      exact hgh (by rw [h1])
    have hnf : ((List.finRange 16).flatMap fun g =>
        (List.finRange 25).map (N3.fxt g)).Nodup := by
      rw [List.nodup_flatMap]
      refine ⟨fun g _ => (List.nodup_finRange 25).map (hfxt3 g), ?_⟩
      refine List.Pairwise.imp_of_mem ?_ (List.nodup_finRange 16)
      intro g h _ _ hgh
      intro a ha hb
      simp only [List.mem_map] at ha hb
      obtain ⟨f1, _, rfl⟩ := ha
      obtain ⟨f2, _, hb⟩ := hb
      injection hb with h1 h2
      exact hgh (by rw [h1])
    refine ⟨⟨?_, ?_, ?_, ?_⟩, ⟨?_, ?_, ?_, ?_⟩, ?_⟩
    · rintro (⟨g, _, h⟩ | ⟨g, _, f, _, h⟩) <;> cases h
    · exact (List.nodup_finRange 16).map hvz
    · exact hnx
    · rintro a ⟨g, _, rfl⟩ ⟨g2, _, f2, _, h⟩; cases h
    · rintro (⟨g, _, h⟩ | ⟨g, _, f, _, h⟩) <;> cases h
    · exact (List.nodup_finRange 16).map hfzt
    · exact hnf
    · rintro a ⟨g, _, rfl⟩ ⟨g2, _, f2, _, h⟩; cases h
    · rintro a (rfl | ⟨g, _, rfl⟩ | ⟨g, _, f, _, rfl⟩)
        (h | ⟨g2, _, h⟩ | ⟨g2, _, f2, _, h⟩) <;> cases h
  · intro x
    cases x with
    | vt => simp [nodes2]
    | vx f => simp [nodes2]
    | ft => simp [nodes2]
    | fxt f => simp [nodes2]
  · intro x
    cases x with
    | vt => simp [nodes3]
    | vz g => simp [nodes3]
    | vx g f =>
      simp only [nodes3, List.mem_append, List.mem_cons, List.mem_flatMap,
        List.mem_map]
      exact Or.inl (Or.inr (Or.inr ⟨g, List.mem_finRange g, f, List.mem_finRange f, rfl⟩))
    | ft => simp [nodes3]
    | fzt g => simp [nodes3]
    | fxt g f =>
      simp only [nodes3, List.mem_append, List.mem_cons, List.mem_flatMap,
        List.mem_map]
      exact Or.inr (Or.inr (Or.inr ⟨g, List.mem_finRange g, f, List.mem_finRange f, rfl⟩))

/-! ## C5: each model's factor graph is a tree -/

/-- The bipartite adjacency of a factor-graph construction: a factor is
adjacent to each variable in its variable list. -/
def adjFacs {α : Type} (facs : List (α × List ℕ × List α)) (a b : α) : Prop :=
  (∃ e ∈ facs, a = e.1 ∧ b ∈ e.2.2) ∨ (∃ e ∈ facs, b = e.1 ∧ a ∈ e.2.2)

def par1 : N1 → Option N1
  | .vt => none
  | .ft => some .vt
  | .fxt1 => some .vt
  | .fxt2 => some .vt
  | .vx1 => some .fxt1
  | .vx2 => some .fxt2

def dep1 : N1 → ℕ
  | .vt => 0
  | .ft => 1
  | .fxt1 => 1
  | .fxt2 => 1
  | .vx1 => 2
  | .vx2 => 2

theorem adj1_iff (a b : N1) :
    adjFacs facs1 a b ↔ (par1 a = some b ∨ par1 b = some a) := by
  unfold adjFacs
  revert a b
  decide

theorem hdep1 : ∀ x p, par1 x = some p → dep1 p < dep1 x := by decide

/-- The example cell's factor graph. -/
def G1 : SimpleGraph N1 where
  Adj := adjFacs facs1
  symm := fun a b h => Or.symm h
  loopless := by
    intro a h
    rcases (adj1_iff a a).mp h with hp | hp <;> exact absurd (hdep1 a a hp) (by omega)

def par2 : N2 → Option N2
  | .vt => none
  | .ft => some .vt
  | .fxt _ => some .vt
  | .vx f => some (.fxt f)

def dep2 : N2 → ℕ
  | .vt => 0
  | .ft => 1
  | .fxt _ => 1
  | .vx _ => 2

theorem adj2_iff (a b : N2) :
    adjFacs facs2 a b ↔ (par2 a = some b ∨ par2 b = some a) := by
  have hone : ∀ u v : N2, (∃ e ∈ facs2, u = e.1 ∧ v ∈ e.2.2) ↔
      ((u = N2.ft ∧ v = N2.vt) ∨
        ∃ f : Fin 400, u = N2.fxt f ∧ (v = N2.vt ∨ v = N2.vx f)) := by
    intro u v
    constructor
    · rintro ⟨e, he, hu, hv⟩
      simp only [facs2, List.mem_cons, List.mem_map] at he
      rcases he with rfl | ⟨f, -, rfl⟩
      · exact Or.inl ⟨hu, by simpa using hv⟩
      · exact Or.inr ⟨f, hu, by simpa using hv⟩
    · rintro (⟨rfl, rfl⟩ | ⟨f, rfl, hv⟩)
      · exact ⟨_, List.mem_cons_self _ _, rfl, by simp⟩
      · refine ⟨_, List.mem_cons_of_mem _ (List.mem_map.mpr ⟨f, List.mem_finRange f, rfl⟩),
          rfl, ?_⟩
        rcases hv with rfl | rfl <;> simp
  unfold adjFacs
  rw [hone, hone]
  cases a <;> cases b <;> simp [par2, eq_comm]

theorem hdep2 : ∀ x p, par2 x = some p → dep2 p < dep2 x := by
  intro x p h
  cases x <;> cases h <;> simp [dep2]

/-- The shallow cell's factor graph. -/
def G2 : SimpleGraph N2 where
  Adj := adjFacs facs2
  symm := fun a b h => Or.symm h
  loopless := by
    intro a h
    rcases (adj2_iff a a).mp h with hp | hp <;> exact absurd (hdep2 a a hp) (by omega)

def par3 : N3 → Option N3
  | .vt => none
  | .ft => some .vt
  | .fzt _ => some .vt
  | .vz g => some (.fzt g)
  | .fxt g _ => some (.vz g)
  | .vx g f => some (.fxt g f)

def dep3 : N3 → ℕ
  | .vt => 0
  | .ft => 1
  | .fzt _ => 1
  | .vz _ => 2
  | .fxt _ _ => 3
  | .vx _ _ => 4

theorem adj3_iff (a b : N3) :
    adjFacs facs3 a b ↔ (par3 a = some b ∨ par3 b = some a) := by
  have hone : ∀ u v : N3, (∃ e ∈ facs3, u = e.1 ∧ v ∈ e.2.2) ↔
      ((u = N3.ft ∧ v = N3.vt) ∨
        (∃ g : Fin 16, u = N3.fzt g ∧ (v = N3.vt ∨ v = N3.vz g)) ∨
        ∃ (g : Fin 16) (f : Fin 25),
          u = N3.fxt g f ∧ (v = N3.vz g ∨ v = N3.vx g f)) := by
    intro u v
    constructor
    · rintro ⟨e, he, hu, hv⟩
      simp only [facs3, List.mem_cons, List.mem_append, List.mem_map,
        List.mem_flatMap] at he
      rcases he with rfl | ⟨g, -, rfl⟩ | ⟨g, -, f, -, rfl⟩
      · exact Or.inl ⟨hu, by simpa using hv⟩
      · exact Or.inr (Or.inl ⟨g, hu, by simpa using hv⟩)
      · exact Or.inr (Or.inr ⟨g, f, hu, by simpa using hv⟩)
    · rintro (⟨rfl, rfl⟩ | ⟨g, rfl, hv⟩ | ⟨g, f, rfl, hv⟩)
      · exact ⟨_, List.mem_cons_self _ _, rfl, by simp⟩
      · refine ⟨_, List.mem_cons_of_mem _
          (List.mem_append_left _ (List.mem_map.mpr ⟨g, List.mem_finRange g, rfl⟩)),
          rfl, ?_⟩
        rcases hv with rfl | rfl <;> simp
      · refine ⟨_, List.mem_cons_of_mem _
          (List.mem_append_right _ (List.mem_flatMap.mpr
            ⟨g, List.mem_finRange g, List.mem_map.mpr ⟨f, List.mem_finRange f, rfl⟩⟩)),
          rfl, ?_⟩
        rcases hv with rfl | rfl <;> simp
  unfold adjFacs
  rw [hone, hone]
  cases a <;> cases b <;> simp [par3, eq_comm, and_comm]

theorem hdep3 : ∀ x p, par3 x = some p → dep3 p < dep3 x := by
  intro x p h
  cases x <;> cases h <;> simp [dep3]

/-- The hierarchical cell's factor graph. -/
def G3 : SimpleGraph N3 where
  Adj := adjFacs facs3
  symm := fun a b h => Or.symm h
  loopless := by
    intro a h
    rcases (adj3_iff a a).mp h with hp | hp <;> exact absurd (hdep3 a a hp) (by omega)

/-- C5: for each of the three models, the bipartite graph on the constructed
`VariableNode`s and `FactorNode`s, with an edge between each factor and each
variable in its variable list, is a tree (connected and acyclic), and the
class variable `VT` is among its nodes. -/
theorem claim_C5 :
    G1.IsTree ∧ G2.IsTree ∧ G3.IsTree ∧
      N1.vt ∈ nodes1 ∧ N2.vt ∈ nodes2 ∧ N3.vt ∈ nodes3 := by
  refine ⟨?_, ?_, ?_, by simp [nodes1], by simp [nodes2], by simp [nodes3]⟩
  · exact isTree_of_parent G1 .vt par1 dep1 adj1_iff
      (fun x h => by cases x <;> simp_all [par1]) hdep1
  · exact isTree_of_parent G2 .vt par2 dep2 adj2_iff
      (fun x h => by cases x <;> simp_all [par2]) hdep2
  · exact isTree_of_parent G3 .vt par3 dep3 adj3_iff
      (fun x h => by cases x <;> simp_all [par3]) hdep3

/-! ## The backpropagation notebook (`src/sheet14.ipynb`): `train`

`modules.py` (the neural-network `Sequential`/`Linear`/`Module` classes) and
`utils.py` (`LinearSVC`) are not among the provided sources, so the methods
called by `train` are modelled from the spec as abstract operations:

* `nn.forward` is a pure function of the parameters and the input data;
* `svc.optimize(Z, Y)` fits the SVC on `(Z, Y)` — modelled from the spec ("at
  each iteration, a SVC classifier is optimized in order to get the most
  up-to-date gradient") as a pure function of its arguments;
* `svc.gradient()` reads the fitted SVC state;
* `nn.backward(DZ)` backpropagates `DZ` and REPLACES the stored parameter
  gradient (the reading of C10, which conditions on exactly this);
* `nn.update(lr)` updates the parameters from the stored gradient.

`train` itself is embedded line by line from the notebook source as a state
machine that also logs every method call as an event. -/

namespace Sheet14

/-- Which dataset a call works on: the training set `(X, Y)` or the test set
`(Xtest, Ytest)`. -/
inductive Src : Type where
  | trainD
  | testD
deriving DecidableEq

/-- The method calls `train` performs, in program order. -/
inductive Ev : Type where
  | forwardC (s : Src)
  | optimizeC (s : Src)
  | gradientC
  | backwardC (s : Src)
  | updateC
  | predictionsC
  | visualizeC
deriving DecidableEq

/-- Modelled from the spec: the abstract operations of the neural network
(`modules.py`) and the SVC (`utils.py`).  `P` = network parameters, `Pg` =
stored parameter gradient, `Ft` = feature arrays, `Sv` = fitted-SVC state,
`Dat`/`Lab` = input data and labels, `Gr` = gradient w.r.t. the feature map. -/
structure Ops (P Pg Ft Sv Dat Lab Gr : Type) where
  forward : P → Dat → Ft
  optimize : Ft → Lab → Sv
  gradient : Sv → Gr
  backward : P → Gr → Pg
  update : P → Pg → ℚ → P

/-- The mutable state of the `nn` and `svc` objects. -/
structure NNSt (P Pg Sv : Type) where
  params : P
  grad : Option Pg
  svc : Option Sv

variable {P Pg Ft Sv Dat Lab Gr : Type}

/-- One iteration of the `for it in range(1,101)` loop, with its event log:
the five gradient-descent lines, then the `msteps` print (which re-optimizes
the SVC on training and then test features), then the `vsteps` visualization
(which fits the SVC on test features and backpropagates its gradient). -/
def iterBody (o : Ops P Pg Ft Sv Dat Lab Gr) (X : Dat) (Y : Lab) (Xt : Dat) (Yt : Lab)
    (msteps vsteps : List ℕ) (lr : ℚ) (st : NNSt P Pg Sv) (it : ℕ) :
    NNSt P Pg Sv × List Ev :=
  -- Z = nn.forward(X); svc.optimize(Z,Y); DZ = svc.gradient(); nn.backward(DZ); nn.update(lr)
  let Z := o.forward st.params X
  let sv := o.optimize Z Y
  let dz := o.gradient sv
  let pg := o.backward st.params dz
  let p2 := o.update st.params pg lr
  let st2 : NNSt P Pg Sv := { params := p2, grad := some pg, svc := some sv }
  -- if it in msteps: print(..., svc.optimize(nn.forward(X),Y), svc.optimize(nn.forward(Xtest),Ytest))
  let st3 : NNSt P Pg Sv :=
    if it ∈ msteps then
      { st2 with svc := some (o.optimize (o.forward st2.params Xt) Yt) }
    else st2
  -- if it in vsteps: Ztest = nn.forward(Xtest); svc.optimize(Ztest,Ytest);
  --   DZtest = svc.gradient(); Ftest = svc.predictions(); DXtest = nn.backward(DZtest); visualize
  let st4 : NNSt P Pg Sv :=
    if it ∈ vsteps then
      let svt := o.optimize (o.forward st3.params Xt) Yt
      { st3 with svc := some svt, grad := some (o.backward st3.params (o.gradient svt)) }
    else st3
  (st4,
    [.forwardC .trainD, .optimizeC .trainD, .gradientC, .backwardC .trainD, .updateC] ++
    (if it ∈ msteps then
      [.forwardC .trainD, .optimizeC .trainD, .forwardC .testD, .optimizeC .testD]
     else []) ++
    (if it ∈ vsteps then
      [.forwardC .testD, .optimizeC .testD, .gradientC, .predictionsC,
        .backwardC .testD, .visualizeC]
     else []))

/-- Source `train(nn, svc, msteps, vsteps, lr)`: 100 iterations of `iterBody` over
`it = 1, …, 100`, accumulating the event log. -/
def train (o : Ops P Pg Ft Sv Dat Lab Gr) (X : Dat) (Y : Lab) (Xt : Dat) (Yt : Lab)
    (msteps vsteps : List ℕ) (lr : ℚ) (st0 : NNSt P Pg Sv) :
    NNSt P Pg Sv × List Ev :=
  (List.range' 1 100).foldl
    (fun acc it =>
      let r := iterBody o X Y Xt Yt msteps vsteps lr acc.1 it
      (r.1, acc.2 ++ r.2))
    (st0, [])

/-- The event log of iteration `it` (events do not depend on the state). -/
def iterEvs (msteps vsteps : List ℕ) (it : ℕ) : List Ev :=
  [.forwardC .trainD, .optimizeC .trainD, .gradientC, .backwardC .trainD, .updateC] ++
  (if it ∈ msteps then
    [.forwardC .trainD, .optimizeC .trainD, .forwardC .testD, .optimizeC .testD]
   else []) ++
  (if it ∈ vsteps then
    [.forwardC .testD, .optimizeC .testD, .gradientC, .predictionsC,
      .backwardC .testD, .visualizeC]
   else [])

theorem iterBody_snd (o : Ops P Pg Ft Sv Dat Lab Gr) (X : Dat) (Y : Lab) (Xt : Dat)
    (Yt : Lab) (msteps vsteps : List ℕ) (lr : ℚ) (st : NNSt P Pg Sv) (it : ℕ) :
    (iterBody o X Y Xt Yt msteps vsteps lr st it).2 = iterEvs msteps vsteps it := rfl

theorem train_trace_aux (o : Ops P Pg Ft Sv Dat Lab Gr) (X : Dat) (Y : Lab) (Xt : Dat)
    (Yt : Lab) (msteps vsteps : List ℕ) (lr : ℚ) :
    ∀ (l : List ℕ) (st : NNSt P Pg Sv) (acc : List Ev),
      (l.foldl (fun acc it =>
          let r := iterBody o X Y Xt Yt msteps vsteps lr acc.1 it
          (r.1, acc.2 ++ r.2)) (st, acc)).2 =
        acc ++ (l.map (iterEvs msteps vsteps)).flatten := by
  intro l
  induction l with
  | nil => intro st acc; simp
  | cons it l ih =>
    intro st acc
    simp only [List.foldl_cons, List.map_cons, List.flatten_cons]
    rw [ih]
    simp [iterBody_snd, List.append_assoc]

/-- C2: for every `nn`, `svc`, `msteps`, `vsteps` and `lr`, `train` performs
exactly 100 gradient-descent iterations (`it = 1..100`), and the event log of
each iteration starts with exactly `nn.forward(X)`, `svc.optimize(Z,Y)`,
`svc.gradient()`, `nn.backward(DZ)`, `nn.update(lr)`, in this order. -/
theorem claim_C2 (o : Ops P Pg Ft Sv Dat Lab Gr) (X : Dat) (Y : Lab) (Xt : Dat)
    (Yt : Lab) (msteps vsteps : List ℕ) (lr : ℚ) (st0 : NNSt P Pg Sv) :
    (train o X Y Xt Yt msteps vsteps lr st0).2 =
        ((List.range' 1 100).map (iterEvs msteps vsteps)).flatten ∧
      (List.range' 1 100).length = 100 ∧
      ∀ it : ℕ, (iterEvs msteps vsteps it).take 5 =
        [.forwardC .trainD, .optimizeC .trainD, .gradientC, .backwardC .trainD,
          .updateC] := by
  refine ⟨?_, by simp, ?_⟩
  · unfold train
    rw [train_trace_aux]
    simp
  · intro it
    unfold iterEvs
    rw [List.append_assoc, List.take_append_of_le_length (by simp)]
    rfl

/-- The parameters after one iteration depend only on the incoming parameters
and the training data — the test data only re-fits the SVC and overwrites the
stored gradient, neither of which survives into the update of this iteration
(the update has already happened) or of the next one (which starts by
recomputing them from the training set). -/
theorem iterBody_params (o : Ops P Pg Ft Sv Dat Lab Gr) (X : Dat) (Y : Lab) (Xt : Dat)
    (Yt : Lab) (msteps vsteps : List ℕ) (lr : ℚ) (st : NNSt P Pg Sv) (it : ℕ) :
    (iterBody o X Y Xt Yt msteps vsteps lr st it).1.params =
      o.update st.params
        (o.backward st.params (o.gradient (o.optimize (o.forward st.params X) Y))) lr := by
  unfold iterBody
  dsimp only
  split <;> split <;> rfl

theorem train_params_aux (o : Ops P Pg Ft Sv Dat Lab Gr) (X : Dat) (Y : Lab)
    (Xt1 : Dat) (Yt1 : Lab) (Xt2 : Dat) (Yt2 : Lab) (msteps vsteps : List ℕ) (lr : ℚ) :
    ∀ (l : List ℕ) (s1 s2 : NNSt P Pg Sv) (a1 a2 : List Ev), s1.params = s2.params →
      (l.foldl (fun acc it =>
          let r := iterBody o X Y Xt1 Yt1 msteps vsteps lr acc.1 it
          (r.1, acc.2 ++ r.2)) (s1, a1)).1.params =
      (l.foldl (fun acc it =>
          let r := iterBody o X Y Xt2 Yt2 msteps vsteps lr acc.1 it
          (r.1, acc.2 ++ r.2)) (s2, a2)).1.params := by
  intro l
  induction l with
  | nil => intro s1 s2 a1 a2 h; exact h
  | cons it l ih =>
    intro s1 s2 a1 a2 h
    simp only [List.foldl_cons]
    apply ih
    rw [iterBody_params, iterBody_params, h]

/-- C10: the parameters `train` ends with do not depend on the test data:
running `train` with any two test sets (and the same network, SVC operations,
training data, steps and learning rate) produces identical final network
parameters. -/
theorem claim_C10 (o : Ops P Pg Ft Sv Dat Lab Gr) (X : Dat) (Y : Lab)
    (Xt1 : Dat) (Yt1 : Lab) (Xt2 : Dat) (Yt2 : Lab) (msteps vsteps : List ℕ)
    (lr : ℚ) (st0 : NNSt P Pg Sv) :
    (train o X Y Xt1 Yt1 msteps vsteps lr st0).1.params =
      (train o X Y Xt2 Yt2 msteps vsteps lr st0).1.params := by
  unfold train
  exact train_params_aux o X Y Xt1 Yt1 Xt2 Yt2 msteps vsteps lr _ st0 st0 [] [] rfl

end Sheet14

end ML
